import Mathlib

/-!
# Shallow embedding of `src/main.rs` (pranaless/terrain)

The program procedurally synthesizes a 2D heightmap by summing octaves of
noise into a scalar buffer (`Map.generate` / `generate_layer`) and renders
it as a text table (`Map.to_table`) or a grayscale image (`Map.to_image`).

Modelling choices:
* `f32` values are modelled as rationals (`ℚ`); the claims under study are
  structural/algebraic and do not hinge on floating-point rounding.
* The external `FastNoise` evaluator is a black box; a configured evaluator
  is a pure function of its seed, its frequency and the sample point
  (`NoiseEval`), as the spec's determinism assumption states.
* An `RngCore` source is modelled as the stream of its successive
  `next_u64` outputs (`RngStream`).
* In-place `Vec` mutation becomes explicit list passing; the `+=` store in
  `generate_layer` is `addAt` (a `List.set` of the old value plus the
  increment), and the nested `for` loops are folds over `List.range`.
-/

/-- A configured noise evaluator: seed → frequency → x → y → value.
Models `FastNoise` with `set_seed`/`set_frequency` followed by
`get_noise(x as f32, y as f32)`. -/
abbrev NoiseEval := ℕ → ℚ → ℕ → ℕ → ℚ

/-- The stream of `next_u64` values drawn from an `RngCore` source:
`rng i` is the value of the `i`-th call. -/
abbrev RngStream := ℕ → ℕ

/-- Rust `h.clamp(0.0, 1.0)`. -/
def clamp01 (q : ℚ) : ℚ := max 0 (min 1 q)

/-- One `+=` store of the Rust inner loop: `output[i] += v`. -/
def addAt (l : List ℚ) (i : ℕ) (v : ℚ) : List ℚ := l.set i (l.getD i 0 + v)

/-- The inner `for x in 0..n` loop of `generate_layer`, accumulating into
row `y` of a buffer of row stride `w` (in the source `n = w = size.0`). -/
def layerRow (noise : ℕ → ℕ → ℚ) (w y : ℕ) (scale offset : ℚ) (n : ℕ)
    (out : List ℚ) : List ℚ :=
  (List.range n).foldl
    (fun acc x => addAt acc (x + y * w) (noise x y * scale + offset)) out

/-- `generate_layer` from `src/main.rs`: for every cell `(x, y)` of the
grid, `output[x + y*size.0] += noise(x, y) * scale + offset`. -/
def generate_layer (noise : ℕ → ℕ → ℚ) (size : ℕ × ℕ) (scale offset : ℚ)
    (output : List ℚ) : List ℚ :=
  (List.range size.2).foldl
    (fun acc y => layerRow noise size.1 y scale offset size.1 acc) output

/-- The `Map` struct of `src/main.rs`: grid size, output height range,
octave count (`roughness`) and the accumulated scalar buffer. -/
structure Map where
  size : ℕ × ℕ
  height : ℚ × ℚ
  roughness : ℕ
  data : List ℚ
deriving DecidableEq

/-- `Map::new`: plain value construction with an empty buffer. -/
def Map.new (size_x size_y : ℕ) (min_z max_z : ℚ) (roughness : ℕ) : Map :=
  { size := (size_x, size_y), height := (min_z, max_z),
    roughness := roughness, data := [] }

/-- One iteration of the octave loop in `Map::generate`:
`freq *= 4; scale /= 6;` reseed with the next RNG draw, accumulate with
offset `0`.  The state is `(freq, scale, data)`; octave `k` (0-based loop
index) uses RNG draw `k + 1` (draw `0` seeded the base octave). -/
def octaveStep (ev : NoiseEval) (rng : RngStream) (size : ℕ × ℕ)
    (st : ℚ × ℚ × List ℚ) (k : ℕ) : ℚ × ℚ × List ℚ :=
  let freq := st.1 * 4
  let scale := st.2.1 / 6
  (freq, scale, generate_layer (ev (rng (k + 1)) freq) size scale 0 st.2.2)

/-- The `for _ in 0..n` octave loop of `Map::generate`, iterating
`octaveStep` on the `(freq, scale, data)` state. -/
def octaveFold (ev : NoiseEval) (rng : RngStream) (size : ℕ × ℕ)
    (init : ℚ × ℚ × List ℚ) (n : ℕ) : ℚ × ℚ × List ℚ :=
  (List.range n).foldl (octaveStep ev rng size) init

/-- The buffer computed by `Map::generate` before the final assignment
`self.data = data`: a fresh zero buffer of length `w*h`, a base octave with
scale `0.5 * scale` and offset `0.5 * scale` (with `scale = 1.0`) at
frequency `1 / ((w + h) / 2)`, then `roughness` octave-loop iterations. -/
def generateData (ev : NoiseEval) (rng : RngStream) (size : ℕ × ℕ)
    (roughness : ℕ) : List ℚ :=
  let data0 : List ℚ := List.replicate (size.1 * size.2) 0
  let avg : ℚ := ((size.1 : ℚ) + (size.2 : ℚ)) / 2
  let freq : ℚ := 1 / avg
  let scale : ℚ := 1
  let base := generate_layer (ev (rng 0) freq) size (0.5 * scale)
    (0.5 * scale) data0
  (octaveFold ev rng size (freq, scale, base) roughness).2.2

/-- `Map::generate`: compute the new buffer locally, then replace
`self.data` with it in a single final assignment. -/
def Map.generate (ev : NoiseEval) (rng : RngStream) (m : Map) : Map :=
  { m with data := generateData ev rng m.size m.roughness }

/-- `Map::generate_seeded`: with `some seed`, generate from
`StdRng::seed_from_u64(seed)` (an RNG stream that is a deterministic
function `stdRngOf` of the seed); with `none`, from `thread_rng()`
(an arbitrary entropy stream). -/
def Map.generate_seeded (ev : NoiseEval) (stdRngOf : ℕ → RngStream)
    (threadRng : RngStream) (seed : Option ℕ) (m : Map) : Map :=
  match seed with
  | some s => m.generate ev (stdRngOf s)
  | none => m.generate ev threadRng

/-- `Map::iter`: enumerate the buffer and decode each index `i` into the
coordinate `(i % width, i / width)`. -/
def Map.iter (m : Map) : List ((ℕ × ℕ) × ℚ) :=
  m.data.enum.map (fun p => ((p.1 % m.size.1, p.1 / m.size.1), p.2))

/-- `self.height.1.log10() as usize` of `Map::to_table`: for `q ≥ 1` this
is `⌊log10 q⌋`; for `q < 1` the `f32` value is negative (or NaN for
`q ≤ 0`) and the `as usize` cast saturates to `0`. -/
def log10trunc (q : ℚ) : ℕ := if 1 ≤ q then Nat.log 10 ⌊q⌋.toNat else 0

/-- Left-pad a string with spaces to length `n` (Rust right-aligned
numeric formatting `{:width$}`; strings already at least `n` long are
unchanged). -/
def padLeft (s : String) (n : ℕ) : String :=
  String.mk (List.replicate (n - s.length) ' ') ++ s

/-- Rust `{:.1}` fixed-point formatting of a value, modelled as rounding
to one decimal digit (Rust rounds ties to even; `round` rounds ties up —
the claims under study do not depend on tie direction). -/
def fmtFixed1 (q : ℚ) : String :=
  let n : ℤ := round (q * 10)
  let sign := if n < 0 then "-" else ""
  sign ++ toString (n.natAbs / 10) ++ "." ++ toString (n.natAbs % 10)

/-- The value a cell renders at: `h.clamp(0.0, 1.0) * (max - min) + min`,
shared by `to_html_table`, `to_table` and (before the 255 scaling a
variant of) `to_image`. -/
def rescale (height : ℚ × ℚ) (h : ℚ) : ℚ :=
  clamp01 h * (height.2 - height.1) + height.1

/-- Rust `String::pop`: remove the last character (no-op on the empty
string). -/
def strPop (s : String) : String := String.mk s.data.dropLast

/-- One rendered cell of `Map::to_table`: the `{:width$.1}` right-aligned
formatting of the rescaled value, followed by the trailing space of the
`"{:width$.1} "` format string. -/
def cellStr (height : ℚ × ℚ) (width : ℕ) (v : ℚ) : String :=
  padLeft (fmtFixed1 (rescale height v)) width ++ " "

/-- Row `y` of the table layout: the `w` rendered cells of that row
concatenated (each cell carries its trailing space). -/
def tableRow (height : ℚ × ℚ) (width w : ℕ) (data : List ℚ) (y : ℕ) :
    String :=
  String.join ((List.range w).map
    (fun x => cellStr height width (data.getD (x + y * w) 0)))

/-- The body of the `for_each` in `Map::to_table`: on a row break
(`x == 0 && y != 0`) pop the last character and push `"\r\n"`, then push
the padded cell followed by a space. -/
def tableStep (height : ℚ × ℚ) (width : ℕ) (data : String)
    (e : (ℕ × ℕ) × ℚ) : String :=
  let data := if e.1.1 = 0 ∧ e.1.2 ≠ 0 then strPop data ++ "\r\n" else data
  data ++ cellStr height width e.2

/-- `Map::to_table`. -/
def Map.to_table (m : Map) : String :=
  m.iter.foldl (tableStep m.height (log10trunc m.height.2 + 3)) ""

/-- The numeric cell values `Map::to_table` renders, in order. -/
def Map.tableValues (m : Map) : List ℚ :=
  m.iter.map (fun e => rescale m.height e.2)

/-- An RGB image: dimensions and a pixel map (models `image::RgbImage`). -/
structure Image where
  width : ℕ
  height : ℕ
  pix : ℕ × ℕ → ℕ × ℕ × ℕ

/-- `RgbImage::new`: all pixels start at zero. -/
def Image.new (w h : ℕ) : Image := ⟨w, h, fun _ => (0, 0, 0)⟩

/-- `RgbImage::put_pixel`. -/
def Image.put_pixel (img : Image) (p : ℕ × ℕ) (c : ℕ × ℕ × ℕ) : Image :=
  { img with pix := Function.update img.pix p c }

/-- `Map::to_image`: for each cell, `(h.clamp(0.0, 1.0) * 255.0) as u8`
(truncation of a value in `[0, 255]`) written as an equal-channel pixel. -/
def Map.to_image (m : Map) : Image :=
  m.iter.foldl
    (fun img e =>
      let c := (⌊clamp01 e.2 * 255⌋).toNat
      img.put_pixel e.1 (c, c, c))
    (Image.new m.size.1 m.size.2)

/-- The per-cell value of the octave schedule exactly as claim C1 words
it: the base octave is accumulated "with scale 0.5 and offset 0.5", and
each of the `roughness` additional octaves "multiplies the frequency by 4,
divides the scale by 6 … and accumulates with offset 0" — i.e. additional
octave `k` (1-based) contributes with scale `0.5 / 6^k`. -/
def claimOctaveValue (ev : NoiseEval) (rng : RngStream) (size : ℕ × ℕ)
    (roughness : ℕ) (x y : ℕ) : ℚ :=
  let freq0 : ℚ := 1 / (((size.1 : ℚ) + (size.2 : ℚ)) / 2)
  ev (rng 0) freq0 x y * 0.5 + 0.5
    + ∑ k ∈ Finset.range roughness,
        ev (rng (k + 1)) (freq0 * 4 ^ (k + 1)) x y * (0.5 / 6 ^ (k + 1))

/-- The invalid-configuration error the spec prescribes for construction
misuse. -/
inductive ConfigError where
  | invalidConfig
deriving DecidableEq

/-- Modelled from the spec: construction "Fails only if width or height is
zero" with "an explicit invalid-configuration error", otherwise pure value
construction.  The source's `Map::new` has no failure path at all; this
definition follows the claim's words, for comparison with `Map.new`. -/
def specNew (size_x size_y : ℕ) (min_z max_z : ℚ) (roughness : ℕ) :
    Except ConfigError Map :=
  if size_x = 0 ∨ size_y = 0 then Except.error ConfigError.invalidConfig
  else Except.ok (Map.new size_x size_y min_z max_z roughness)

/-- The maps reachable through the public `Map` operations that produce or
transform a `Map`: construction and the two generation entry points. -/
inductive ReachableMap : Map → Prop where
  | new : ∀ (sx sy : ℕ) (mn mx : ℚ) (r : ℕ),
      ReachableMap (Map.new sx sy mn mx r)
  | generate : ∀ (ev : NoiseEval) (rng : RngStream) (m : Map),
      ReachableMap m → ReachableMap (m.generate ev rng)
  | generate_seeded : ∀ (ev : NoiseEval) (stdRngOf : ℕ → RngStream)
      (threadRng : RngStream) (seed : Option ℕ) (m : Map),
      ReachableMap m →
      ReachableMap (m.generate_seeded ev stdRngOf threadRng seed)

/-! ## Lemmas about the accumulation loops -/

theorem addAt_length (l : List ℚ) (i : ℕ) (v : ℚ) :
    (addAt l i v).length = l.length := by
  simp [addAt]

theorem addAt_getElem?_ne (l : List ℚ) {i j : ℕ} (v : ℚ) (h : i ≠ j) :
    (addAt l i v)[j]? = l[j]? := by
  simp [addAt, List.getElem?_set_ne h]

theorem addAt_getD_self (l : List ℚ) {i : ℕ} (v : ℚ) (h : i < l.length) :
    (addAt l i v).getD i 0 = l.getD i 0 + v := by
  simp [addAt, List.getD_eq_getElem?_getD, List.getElem?_set_self h]

theorem layerRow_succ (noise : ℕ → ℕ → ℚ) (w y : ℕ) (s o : ℚ) (n : ℕ)
    (out : List ℚ) :
    layerRow noise w y s o (n + 1) out
      = addAt (layerRow noise w y s o n out) (n + y * w) (noise n y * s + o) := by
  simp [layerRow, List.range_succ]

theorem layerRow_length (noise : ℕ → ℕ → ℚ) (w y : ℕ) (s o : ℚ) (n : ℕ)
    (out : List ℚ) : (layerRow noise w y s o n out).length = out.length := by
  induction n with
  | zero => rfl
  | succ n ih => rw [layerRow_succ, addAt_length, ih]

theorem layerRow_getElem?_untouched (noise : ℕ → ℕ → ℚ) (w y : ℕ) (s o : ℚ)
    (n : ℕ) (out : List ℚ) {j : ℕ} (h : j < y * w ∨ y * w + n ≤ j) :
    (layerRow noise w y s o n out)[j]? = out[j]? := by
  induction n with
  | zero => rfl
  | succ n ih =>
    rw [layerRow_succ, addAt_getElem?_ne _ _ (by omega)]
    exact ih (by omega)

theorem layerRow_getD (noise : ℕ → ℕ → ℚ) (w y : ℕ) (s o : ℚ) (n : ℕ)
    (out : List ℚ) {x : ℕ} (hx : x < n) (hj : x + y * w < out.length) :
    (layerRow noise w y s o n out).getD (x + y * w) 0
      = out.getD (x + y * w) 0 + (noise x y * s + o) := by
  induction n with
  | zero => omega
  | succ n ih =>
    rw [layerRow_succ]
    rcases Nat.lt_succ_iff_lt_or_eq.mp hx with h | rfl
    · rw [show (addAt (layerRow noise w y s o n out) (n + y * w)
          (noise n y * s + o)).getD (x + y * w) 0
            = (layerRow noise w y s o n out).getD (x + y * w) 0 by
        simp [List.getD_eq_getElem?_getD,
          addAt_getElem?_ne _ _ (show n + y * w ≠ x + y * w by omega)]]
      exact ih h
    · rw [addAt_getD_self _ _ (by rw [layerRow_length]; exact hj)]
      congr 1
      simp only [List.getD_eq_getElem?_getD]
      rw [@layerRow_getElem?_untouched noise w y s o x out (x + y * w)
        (Or.inr (by omega))]

theorem generate_layer_succ_h (noise : ℕ → ℕ → ℚ) (w hh : ℕ) (s o : ℚ)
    (out : List ℚ) :
    generate_layer noise (w, hh + 1) s o out
      = layerRow noise w hh s o w (generate_layer noise (w, hh) s o out) := by
  simp [generate_layer, List.range_succ]

theorem generate_layer_length (noise : ℕ → ℕ → ℚ) (size : ℕ × ℕ) (s o : ℚ)
    (out : List ℚ) : (generate_layer noise size s o out).length = out.length := by
  obtain ⟨w, hh⟩ := size
  induction hh with
  | zero => rfl
  | succ n ih => rw [generate_layer_succ_h, layerRow_length, ih]

theorem generate_layer_getElem?_untouched (noise : ℕ → ℕ → ℚ) (w hh : ℕ)
    (s o : ℚ) (out : List ℚ) {j : ℕ} (h : w * hh ≤ j) :
    (generate_layer noise (w, hh) s o out)[j]? = out[j]? := by
  induction hh with
  | zero => rfl
  | succ n ih =>
    have e : w * (n + 1) = n * w + w := by ring
    have e2 : w * n = n * w := Nat.mul_comm w n
    rw [generate_layer_succ_h,
      layerRow_getElem?_untouched _ _ _ _ _ _ _ (Or.inr (by omega))]
    exact ih (by omega)

theorem generate_layer_getD (noise : ℕ → ℕ → ℚ) (w hh : ℕ) (s o : ℚ)
    (out : List ℚ) {x y : ℕ} (hx : x < w) (hy : y < hh)
    (hj : x + y * w < out.length) :
    (generate_layer noise (w, hh) s o out).getD (x + y * w) 0
      = out.getD (x + y * w) 0 + (noise x y * s + o) := by
  induction hh with
  | zero => omega
  | succ n ih =>
    rw [generate_layer_succ_h]
    rcases Nat.lt_succ_iff_lt_or_eq.mp hy with h | rfl
    · rw [show (layerRow noise w n s o w
          (generate_layer noise (w, n) s o out)).getD (x + y * w) 0
            = (generate_layer noise (w, n) s o out).getD (x + y * w) 0 by
        simp only [List.getD_eq_getElem?_getD]
        rw [@layerRow_getElem?_untouched noise w n s o w
          (generate_layer noise (w, n) s o out) (x + y * w) (Or.inl (by
            have h1 : (y + 1) * w ≤ n * w := Nat.mul_le_mul_right w h
            have e : (y + 1) * w = y * w + w := by ring
            omega))]]
      exact ih h
    · rw [layerRow_getD _ _ _ _ _ _ _ hx
        (by rw [generate_layer_length]; exact hj)]
      congr 1
      simp only [List.getD_eq_getElem?_getD]
      rw [@generate_layer_getElem?_untouched noise w y s o out (x + y * w)
        (show w * y ≤ x + y * w by
          have e : w * y = y * w := Nat.mul_comm w y
          omega)]

/-- Row-major index arithmetic: a grid cell's index is within the buffer. -/
theorem cell_index_lt {x y w h : ℕ} (hx : x < w) (hy : y < h) :
    x + y * w < w * h := by
  have h1 : (y + 1) * w ≤ h * w := Nat.mul_le_mul_right w hy
  have e1 : (y + 1) * w = y * w + w := by ring
  have e2 : h * w = w * h := Nat.mul_comm h w
  omega

theorem octaveFold_succ (ev : NoiseEval) (rng : RngStream) (size : ℕ × ℕ)
    (init : ℚ × ℚ × List ℚ) (n : ℕ) :
    octaveFold ev rng size init (n + 1)
      = octaveStep ev rng size (octaveFold ev rng size init n) n := by
  simp [octaveFold, List.range_succ]

/-- Invariant of the octave loop: after `n` iterations starting from
frequency `freq0`, scale `1` and buffer `base` of grid length, the
frequency is `freq0 * 4^n`, the scale is `1 / 6^n`, the buffer length is
unchanged, and each grid cell has accumulated, beyond its base value, one
contribution `ev (rng (k+1)) (freq0 * 4^(k+1)) x y * (1 / 6^(k+1))` per
completed octave `k`. -/
theorem octaveFold_invariant (ev : NoiseEval) (rng : RngStream) (w h : ℕ)
    (freq0 : ℚ) (base : List ℚ) (hlen : base.length = w * h) (n : ℕ) :
    (octaveFold ev rng (w, h) (freq0, 1, base) n).1 = freq0 * 4 ^ n ∧
    (octaveFold ev rng (w, h) (freq0, 1, base) n).2.1 = 1 / 6 ^ n ∧
    (octaveFold ev rng (w, h) (freq0, 1, base) n).2.2.length = w * h ∧
    ∀ x y : ℕ, x < w → y < h →
      (octaveFold ev rng (w, h) (freq0, 1, base) n).2.2.getD (x + y * w) 0
        = base.getD (x + y * w) 0
          + ∑ k ∈ Finset.range n,
              ev (rng (k + 1)) (freq0 * 4 ^ (k + 1)) x y * (1 / 6 ^ (k + 1)) := by
  induction n with
  | zero =>
    refine ⟨by simp [octaveFold], by simp [octaveFold],
      by simp [octaveFold, hlen], ?_⟩
    intro x y hx hy
    simp [octaveFold]
  | succ n ih =>
    obtain ⟨hf, hs, hl, hv⟩ := ih
    rw [octaveFold_succ]
    simp only [octaveStep, hf, hs]
    have efreq : freq0 * 4 ^ n * 4 = freq0 * 4 ^ (n + 1) := by ring
    rw [efreq]
    refine ⟨rfl, by ring, by rw [generate_layer_length]; exact hl, ?_⟩
    intro x y hx hy
    rw [generate_layer_getD _ _ _ _ _ _ hx hy
      (by rw [hl]; exact cell_index_lt hx hy)]
    rw [hv x y hx hy, Finset.sum_range_succ]
    ring

/-! ## Lemmas about `generateData` and `Map.iter` -/

theorem generateData_length (ev : NoiseEval) (rng : RngStream)
    (size : ℕ × ℕ) (roughness : ℕ) :
    (generateData ev rng size roughness).length = size.1 * size.2 := by
  obtain ⟨w, h⟩ := size
  simp only [generateData]
  exact (octaveFold_invariant ev rng w h _ _
    (by rw [generate_layer_length, List.length_replicate]) roughness).2.2.1

/-- The value `Map::generate` leaves at cell `(x, y)`: base octave at
frequency `1/((w+h)/2)` with scale and offset `1/2`, plus one term per
additional octave `k` (1-based) at frequency `4^k/((w+h)/2)` with scale
`1/6^k` and offset `0`, each octave seeded by its own RNG draw. -/
theorem generateData_getD (ev : NoiseEval) (rng : RngStream) (w h : ℕ)
    (roughness : ℕ) {x y : ℕ} (hx : x < w) (hy : y < h) :
    (generateData ev rng (w, h) roughness).getD (x + y * w) 0
      = ev (rng 0) (1 / (((w : ℚ) + (h : ℚ)) / 2)) x y * (1 / 2) + 1 / 2
        + ∑ k ∈ Finset.range roughness,
            ev (rng (k + 1)) ((1 / (((w : ℚ) + (h : ℚ)) / 2)) * 4 ^ (k + 1)) x y
              * (1 / 6 ^ (k + 1)) := by
  simp only [generateData]
  rw [(octaveFold_invariant ev rng w h _ _
    (by rw [generate_layer_length, List.length_replicate]) roughness).2.2.2
    x y hx hy]
  rw [generate_layer_getD _ _ _ _ _ _ hx hy
    (by rw [List.length_replicate]; exact cell_index_lt hx hy)]
  have hrep : (List.replicate (w * h) (0 : ℚ)).getD (x + y * w) 0 = 0 := by
    simp only [List.getD_eq_getElem?_getD, List.getElem?_replicate]
    split <;> rfl
  rw [hrep]
  norm_num

theorem Map.iter_length (m : Map) : m.iter.length = m.data.length := by
  simp [Map.iter]

theorem Map.iter_getElem? (m : Map) (i : ℕ) :
    m.iter[i]? = m.data[i]?.map
      (fun v => ((i % m.size.1, i / m.size.1), v)) := by
  cases h : m.data[i]? with
  | none =>
    simp [Map.iter, List.getElem?_enum, h]
  | some v =>
    simp [Map.iter, List.getElem?_enum, h]

theorem Map.iter_map_fst (m : Map) :
    m.iter.map Prod.fst = (List.range m.data.length).map
      (fun i => (i % m.size.1, i / m.size.1)) := by
  rw [Map.iter, List.map_map,
    show (Prod.fst ∘ fun p : ℕ × ℚ => ((p.1 % m.size.1, p.1 / m.size.1), p.2))
      = (fun i => (i % m.size.1, i / m.size.1)) ∘ Prod.fst from rfl,
    ← List.map_map, List.enum_map_fst]

/-- Decoding the row-major index of a grid cell recovers its coordinates. -/
theorem rowMajor_decode {x y w : ℕ} (hx : x < w) :
    (x + y * w) % w = x ∧ (x + y * w) / w = y := by
  constructor
  · rw [Nat.add_mul_mod_self_right, Nat.mod_eq_of_lt hx]
  · rw [Nat.add_mul_div_right _ _ (by omega : 0 < w), Nat.div_eq_of_lt hx]
    omega

/-! ## Claim theorems -/

/-- **C9**: for every cell `(x, y)` with `x < width`, `y < height` of a
buffer of length `width*height`, `generate_layer` leaves
`buffer[x + y*width]` incremented by `noise x y * scale + offset` (old
content preserved and added to), preserves the buffer length, and touches
no index outside the grid (indices `≥ width*height` of any buffer are
unchanged). -/
theorem claim_C9_layer_contract (noise : ℕ → ℕ → ℚ) (w h : ℕ) (s o : ℚ)
    (out : List ℚ) (hlen : out.length = w * h) :
    (∀ x y : ℕ, x < w → y < h →
        (generate_layer noise (w, h) s o out).getD (x + y * w) 0
          = out.getD (x + y * w) 0 + (noise x y * s + o)) ∧
    (generate_layer noise (w, h) s o out).length = out.length ∧
    (∀ (out2 : List ℚ) (j : ℕ), w * h ≤ j →
        (generate_layer noise (w, h) s o out2)[j]? = out2[j]?) := by
  refine ⟨?_, generate_layer_length _ _ _ _ _, ?_⟩
  · intro x y hx hy
    exact generate_layer_getD _ _ _ _ _ _ hx hy (hlen ▸ cell_index_lt hx hy)
  · intro out2 j hj
    exact generate_layer_getElem?_untouched _ _ _ _ _ _ hj

/-- Witness for C9 at a concrete input: a 2×2 grid, noise `x + 2y`,
scale 3, offset 1, buffer `[10, 20, 30, 40]`; cell `(1, 1)` ends at
`40 + ((1 + 2·1)·3 + 1) = 50`. -/
theorem claim_C9_witness :
    ([10, 20, 30, 40] : List ℚ).length = 2 * 2 ∧
    (generate_layer (fun a b => (a : ℚ) + 2 * b) (2, 2) 3 1
        [10, 20, 30, 40]).getD (1 + 1 * 2) 0
      = ([10, 20, 30, 40] : List ℚ).getD (1 + 1 * 2) 0
        + (((1 : ℕ) : ℚ) + 2 * ((1 : ℕ) : ℚ)) * 3 + 1 := by
  refine ⟨rfl, ?_⟩
  have := (claim_C9_layer_contract (fun a b => (a : ℚ) + 2 * b) 2 2 3 1
    [10, 20, 30, 40] rfl).1 1 1 (by decide) (by decide)
  rw [this]; ring

/-- The two `BEq (ℕ × ℕ)` instances in scope (the structure-derived one
and the one from decidable equality) count identically. -/
theorem count_prod_beq (a : ℕ × ℕ) (l : List (ℕ × ℕ)) :
    l.count a = @List.count _ instBEqOfDecidableEq a l := by
  induction l with
  | nil => rfl
  | cons b l ih =>
    rw [List.count_cons, @List.count_cons _ instBEqOfDecidableEq, ih]
    congr 1
    by_cases hba : b = a
    · simp [instBEqOfDecidableEq, hba]
    · simp [instBEqOfDecidableEq, hba]

/-- **C4**: after `generate`, `iter` yields exactly `width*height`
entries; the entry at position `x + y*width` is `((x, y), value)` at that
cell (row-major, `x` fastest); every in-range coordinate appears exactly
once among the yielded coordinates; and on a freshly constructed map
(before generation) `iter` is the empty sequence. -/
theorem claim_C4_iter_shape (ev : NoiseEval) (rng : RngStream) (m : Map) :
    (m.generate ev rng).iter.length = m.size.1 * m.size.2 ∧
    (∀ x y : ℕ, x < m.size.1 → y < m.size.2 →
      (m.generate ev rng).iter[x + y * m.size.1]?
        = some ((x, y), (m.generate ev rng).data.getD (x + y * m.size.1) 0)) ∧
    (∀ x y : ℕ, x < m.size.1 → y < m.size.2 →
      ((m.generate ev rng).iter.map Prod.fst).count (x, y) = 1) ∧
    (∀ (sx sy r : ℕ) (mn mx : ℚ), (Map.new sx sy mn mx r).iter = []) := by
  have hdata : (m.generate ev rng).data.length = m.size.1 * m.size.2 := by
    simp [Map.generate, generateData_length]
  have hs1 : (m.generate ev rng).size.1 = m.size.1 := rfl
  refine ⟨?_, ?_, ?_, ?_⟩
  · rw [Map.iter_length, hdata]
  · intro x y hx hy
    have hi : x + y * m.size.1 < (m.generate ev rng).data.length := by
      rw [hdata]; exact cell_index_lt hx hy
    simp only [Map.iter_getElem?, hs1, (rowMajor_decode hx).1,
      (rowMajor_decode hx).2, List.getElem?_eq_getElem hi,
      Option.map_some', List.getD_eq_getElem?_getD, Option.getD_some]
  · intro x y hx hy
    have hinj : Function.Injective
        (fun i : ℕ => (i % m.size.1, i / m.size.1)) := by
      intro a b hab
      simp only [Prod.mk.injEq] at hab
      obtain ⟨h1, h2⟩ := hab
      have ha := Nat.div_add_mod a m.size.1
      have hb := Nat.div_add_mod b m.size.1
      rw [h1, h2] at ha
      omega
    rw [Map.iter_map_fst, hdata, hs1]
    have hcount := @List.count_map_of_injective ℕ (ℕ × ℕ) _ _
      (List.range (m.size.1 * m.size.2))
      (fun i : ℕ => (i % m.size.1, i / m.size.1)) hinj (x + y * m.size.1)
    simp only [(rowMajor_decode hx).1, (rowMajor_decode hx).2] at hcount
    rw [count_prod_beq]
    exact hcount.trans (List.count_eq_one_of_mem (List.nodup_range _)
      (List.mem_range.mpr (cell_index_lt hx hy)))
  · intro sx sy r mn mx
    rfl

/-- Witness for C4 on a concrete 2×3 map: 6 entries, position `1 + 2·2`
carries coordinate `(1, 2)`, coordinate `(1, 2)` appears once, and a fresh
map iterates to nothing. -/
theorem claim_C4_witness :
    ((Map.new 2 3 0 1 0).generate (fun _ _ _ _ => 1) (fun _ => 0)).iter.length
        = 2 * 3 ∧
    ((Map.new 2 3 0 1 0).generate (fun _ _ _ _ => 1) (fun _ => 0)).iter[1 + 2 * 2]?
      = some ((1, 2),
          ((Map.new 2 3 0 1 0).generate (fun _ _ _ _ => 1)
            (fun _ => 0)).data.getD (1 + 2 * 2) 0) ∧
    (((Map.new 2 3 0 1 0).generate (fun _ _ _ _ => 1)
        (fun _ => 0)).iter.map Prod.fst).count (1, 2) = 1 := by
  obtain ⟨h1, h2, h3, h4⟩ :=
    claim_C4_iter_shape (fun _ _ _ _ => 1) (fun _ => 0) (Map.new 2 3 0 1 0)
  exact ⟨h1, h2 1 2 (by decide) (by decide), h3 1 2 (by decide) (by decide)⟩

/-- **C1 counterexample**: the claim's octave schedule ("base scale 0.5
… divides the scale by 6") predicts that the first additional octave
accumulates with scale `0.5/6 = 1/12`; the code divides an internal scale
that starts at `1.0`, so that octave actually uses `1/6`.  On a 1×1 map
with constant noise `1` and `roughness = 1` the code produces
`1·0.5 + 0.5 + 1·(1/6) = 7/6`, not the claimed `1·0.5 + 0.5 + 1·(1/12)
= 13/12`. -/
theorem claim_C1_counterexample :
    ((Map.new 1 1 0 1 1).generate (fun _ _ _ _ => 1) (fun i => i)).data.getD 0 0
      ≠ claimOctaveValue (fun _ _ _ _ => 1) (fun i => i) (1, 1) 1 0 0 := by
  have h1 : ((Map.new 1 1 0 1 1).generate (fun _ _ _ _ => 1) (fun i => i)).data
      = [7/6] := by
    show generateData (fun _ _ _ _ => 1) (fun i => i) (1, 1) 1 = [7/6]
    norm_num [generateData, octaveFold, octaveStep, generate_layer, layerRow,
      addAt, List.range_succ, show List.range 1 = [0] from rfl]
  rw [h1]
  norm_num [claimOctaveValue, Finset.sum_range_succ]

/-- **C1 (amended)**: `generate` sets the base frequency to
`1/((width+height)/2)` and accumulates the base octave with scale `0.5`
and offset `0.5`; each of the `roughness` additional octaves multiplies
the frequency by 4, divides the *internal* scale factor (which starts at
`1.0` and of which the base octave used half) by 6 — so additional octave
`k` (1-based) uses scale `1/6^k`, not `0.5/6^k` — draws a fresh seed from
the RNG for that octave, and accumulates with offset `0`. -/
theorem claim_C1_amended_octave_schedule (ev : NoiseEval) (rng : RngStream)
    (m : Map) {x y : ℕ} (hx : x < m.size.1) (hy : y < m.size.2) :
    (m.generate ev rng).data.getD (x + y * m.size.1) 0
      = ev (rng 0) (1 / (((m.size.1 : ℚ) + (m.size.2 : ℚ)) / 2)) x y * (1 / 2)
          + 1 / 2
        + ∑ k ∈ Finset.range m.roughness,
            ev (rng (k + 1))
                ((1 / (((m.size.1 : ℚ) + (m.size.2 : ℚ)) / 2)) * 4 ^ (k + 1))
                x y
              * (1 / 6 ^ (k + 1)) :=
  generateData_getD ev rng m.size.1 m.size.2 m.roughness hx hy

/-- Witness for the amended C1 on a 2×2 map with constant noise `1` and
one additional octave, at cell `(1, 1)`. -/
theorem claim_C1_witness :
    ((Map.new 2 2 0 1 1).generate (fun _ _ _ _ => 1) (fun i => i)).data.getD
        (1 + 1 * 2) 0
      = (1 : ℚ) * (1 / 2) + 1 / 2
        + ∑ k ∈ Finset.range 1, (1 : ℚ) * (1 / 6 ^ (k + 1)) :=
  claim_C1_amended_octave_schedule (fun _ _ _ _ => 1) (fun i => i)
    (Map.new 2 2 0 1 1) (by decide) (by decide)

/-- **C2**: with a fixed 64-bit seed, `generate_seeded (some seed)`
followed by `iter` is a deterministic function of the seed and the
constructor configuration: two maps agreeing on size, height range and
roughness yield identical `((x, y), value)` sequences, whatever their
prior buffers and whatever entropy the unseeded path would have drawn
(the noise evaluator and the seed→stream derivation being deterministic
functions). -/
theorem claim_C2_seeded_determinism (ev : NoiseEval) (stdRngOf : ℕ → RngStream)
    (tr1 tr2 : RngStream) (seed : ℕ) (m1 m2 : Map)
    (hsize : m1.size = m2.size) (hheight : m1.height = m2.height)
    (hrough : m1.roughness = m2.roughness) :
    (m1.generate_seeded ev stdRngOf tr1 (some seed)).iter
      = (m2.generate_seeded ev stdRngOf tr2 (some seed)).iter := by
  obtain ⟨s1, h1, r1, d1⟩ := m1
  obtain ⟨s2, h2, r2, d2⟩ := m2
  simp only [Map.mk.injEq] at hsize hheight hrough ⊢
  subst hsize; subst hheight; subst hrough
  rfl

/-- Witness for C2: two maps with equal configuration but different prior
buffers produce the same iteration sequence under seed 42. -/
theorem claim_C2_witness :
    (({ size := (2, 2), height := (0, 10), roughness := 1, data := [5] }
        : Map).size
      = ({ size := (2, 2), height := (0, 10), roughness := 1, data := [] }
        : Map).size) ∧
    (({ size := (2, 2), height := (0, 10), roughness := 1, data := [5] }
        : Map).generate_seeded (fun _ _ _ _ => 1) (fun s i => s + i)
        (fun i => i) (some 42)).iter
      = (({ size := (2, 2), height := (0, 10), roughness := 1, data := [] }
        : Map).generate_seeded (fun _ _ _ _ => 1) (fun s i => s + i)
        (fun i => i + 7) (some 42)).iter :=
  ⟨rfl, claim_C2_seeded_determinism (fun _ _ _ _ => 1) (fun s i => s + i)
    (fun i => i) (fun i => i + 7) 42 _ _ rfl rfl rfl⟩

/-- **C3 counterexample**: `Map::new` never fails — at width `0` it still
succeeds as pure value construction (returning a `Map` with the given
fields and an empty buffer), whereas the claim requires construction to
fail with an invalid-configuration error exactly there, as the
spec-modelled constructor `specNew` does. -/
theorem claim_C3_counterexample :
    Map.new 0 5 0 1 2
      = { size := (0, 5), height := (0, 1), roughness := 2, data := [] } ∧
    specNew 0 5 0 1 2 = Except.error ConfigError.invalidConfig :=
  ⟨rfl, rfl⟩

/-- **C3 (amended)**: `Map::new` performs no validation: for every
width and height — zero included — it succeeds as pure value construction
with an empty buffer; it agrees with the spec-modelled constructor
exactly on positive dimensions. -/
theorem claim_C3_new_never_fails (sx sy : ℕ) (mn mx : ℚ) (r : ℕ) :
    Map.new sx sy mn mx r
      = { size := (sx, sy), height := (mn, mx), roughness := r, data := [] }
    ∧ (0 < sx → 0 < sy →
        specNew sx sy mn mx r = Except.ok (Map.new sx sy mn mx r)) := by
  refine ⟨rfl, fun hx hy => ?_⟩
  simp only [specNew]
  rw [if_neg (by omega : ¬(sx = 0 ∨ sy = 0))]

/-- Witness for C3's amended statement at positive dimensions 3×4. -/
theorem claim_C3_witness :
    (Map.new 3 4 0 1 2
      = { size := (3, 4), height := (0, 1), roughness := 2, data := [] })
    ∧ specNew 3 4 0 1 2 = Except.ok (Map.new 3 4 0 1 2) :=
  ⟨(claim_C3_new_never_fails 3 4 0 1 2).1,
    (claim_C3_new_never_fails 3 4 0 1 2).2 (by decide) (by decide)⟩

/-- **C6**: `generate` replaces the buffer in a single final assignment
after the whole multi-octave loop: the map's other fields are untouched,
the new buffer is computed independently of the previous buffer (maps
agreeing on size and roughness get identical new buffers whatever the
prior buffer content — so no intermediate accumulation state can leak
through the previous buffer), and after `generate` the buffer length is
exactly `width*height` regardless of prior state. -/
theorem claim_C6_atomic_replacement (ev : NoiseEval) (rng : RngStream)
    (m1 m2 : Map) (hsize : m1.size = m2.size)
    (hrough : m1.roughness = m2.roughness) :
    (m1.generate ev rng).size = m1.size ∧
    (m1.generate ev rng).height = m1.height ∧
    (m1.generate ev rng).roughness = m1.roughness ∧
    (m1.generate ev rng).data = (m2.generate ev rng).data ∧
    (m1.generate ev rng).data.length = m1.size.1 * m1.size.2 := by
  refine ⟨rfl, rfl, rfl, ?_, ?_⟩
  · show generateData ev rng m1.size m1.roughness
      = generateData ev rng m2.size m2.roughness
    rw [hsize, hrough]
  · show (generateData ev rng m1.size m1.roughness).length = _
    exact generateData_length ev rng m1.size m1.roughness

/-- Witness for C6: two concrete maps differing only in their prior
buffers. -/
theorem claim_C6_witness :
    (({ size := (2, 3), height := (0, 1), roughness := 2, data := [9, 9] }
        : Map).generate (fun _ _ _ _ => 1) (fun i => i)).data
      = (({ size := (2, 3), height := (0, 1), roughness := 2, data := [] }
        : Map).generate (fun _ _ _ _ => 1) (fun i => i)).data ∧
    (({ size := (2, 3), height := (0, 1), roughness := 2, data := [9, 9] }
        : Map).generate (fun _ _ _ _ => 1) (fun i => i)).data.length = 2 * 3 :=
  ⟨(claim_C6_atomic_replacement (fun _ _ _ _ => 1) (fun i => i) _ _
      rfl rfl).2.2.2.1,
    (claim_C6_atomic_replacement (fun _ _ _ _ => 1) (fun i => i)
      ({ size := (2, 3), height := (0, 1), roughness := 2, data := [9, 9] }
        : Map) _ rfl rfl).2.2.2.2⟩

/-! ## Range lemmas for the renderers -/

theorem clamp01_mem (q : ℚ) : 0 ≤ clamp01 q ∧ clamp01 q ≤ 1 :=
  ⟨le_max_left 0 _, max_le (by norm_num) (min_le_left _ _)⟩

theorem rescale_mem (height : ℚ × ℚ) (hmm : height.1 ≤ height.2) (q : ℚ) :
    height.1 ≤ rescale height q ∧ rescale height q ≤ height.2 := by
  obtain ⟨h0, h1⟩ := clamp01_mem q
  unfold rescale
  constructor
  · nlinarith
  · nlinarith

theorem pixel_byte_le (q : ℚ) : (⌊clamp01 q * 255⌋).toNat ≤ 255 := by
  have h1 : clamp01 q ≤ 1 := (clamp01_mem q).2
  have h2 : clamp01 q * 255 ≤ ((255 : ℤ) : ℚ) := by push_cast; nlinarith
  have h3 : ⌊clamp01 q * 255⌋ ≤ 255 := by
    have := Int.floor_le_floor h2
    rwa [Int.floor_intCast] at this
  omega

/-- Any pixel property holding for the initial image and for every written
grayscale byte holds for every pixel of the folded image. -/
theorem to_image_fold_prop (P : ℕ × ℕ × ℕ → Prop)
    (hP : ∀ q : ℚ, P ((⌊clamp01 q * 255⌋).toNat, (⌊clamp01 q * 255⌋).toNat,
      (⌊clamp01 q * 255⌋).toNat))
    (l : List ((ℕ × ℕ) × ℚ)) (img : Image) (himg : ∀ p, P (img.pix p)) :
    ∀ p, P ((l.foldl
      (fun img e =>
        let c := (⌊clamp01 e.2 * 255⌋).toNat
        img.put_pixel e.1 (c, c, c)) img).pix p) := by
  induction l generalizing img with
  | nil => exact himg
  | cons e l ih =>
    intro p
    refine ih _ (fun q => ?_) p
    unfold Image.put_pixel
    by_cases hq : q = e.1
    · subst hq
      simpa [Function.update_same] using hP e.2
    · simpa [Function.update_noteq hq] using himg q

/-- **C5**: assuming `min_height ≤ max_height`, every numeric value
`to_table` renders (clamp to `[0,1]`, then rescale) lies within
`[min_height, max_height]`, and every pixel `to_image` produces has three
equal channels, each at most `255` — for arbitrary raw buffer values,
including values outside `[0, 1]`. -/
theorem claim_C5_output_ranges (m : Map) (hmm : m.height.1 ≤ m.height.2) :
    (∀ v ∈ m.tableValues, m.height.1 ≤ v ∧ v ≤ m.height.2) ∧
    (∀ p : ℕ × ℕ, (m.to_image.pix p).1 ≤ 255 ∧
      (m.to_image.pix p).1 = (m.to_image.pix p).2.1 ∧
      (m.to_image.pix p).1 = (m.to_image.pix p).2.2) := by
  constructor
  · intro v hv
    simp only [Map.tableValues, List.mem_map] at hv
    obtain ⟨e, -, rfl⟩ := hv
    exact rescale_mem m.height hmm e.2
  · exact to_image_fold_prop
      (fun px => px.1 ≤ 255 ∧ px.1 = px.2.1 ∧ px.1 = px.2.2)
      (fun q => ⟨pixel_byte_le q, rfl, rfl⟩)
      m.iter (Image.new m.size.1 m.size.2)
      (fun _ => ⟨Nat.zero_le _, rfl, rfl⟩)

/-- Witness for C5 on a 1×1 map with height range `[2, 5]` and a raw value
`3/2` outside `[0, 1]`: the rendered value is `5 ∈ [2, 5]` and the single
pixel is `(255, 255, 255)`. -/
theorem claim_C5_witness :
    ((2 : ℚ) ≤ (5 : ℚ)) ∧
    ((2 : ℚ) ≤ (5 : ℚ) ∧ (5 : ℚ) ≤ (5 : ℚ)) ∧
    ((({ size := (1, 1), height := (2, 5), roughness := 0, data := [3/2] }
        : Map).to_image.pix (0, 0)).1 ≤ 255) := by
  have happ := claim_C5_output_ranges
    ({ size := (1, 1), height := (2, 5), roughness := 0, data := [3/2] } : Map)
    (by norm_num)
  refine ⟨by norm_num, ?_, (happ.2 (0, 0)).1⟩
  have hval : ({ size := (1, 1), height := (2, 5), roughness := 0, data := [3/2] } : Map).tableValues = [5] := by
    simp [Map.tableValues, Map.iter, List.enum, List.enumFrom, rescale,
      clamp01, min_def, max_def]
    norm_num
  have hmem : (5 : ℚ) ∈ ({ size := (1, 1), height := (2, 5), roughness := 0, data := [3/2] } : Map).tableValues := by
    rw [hval]
    exact List.mem_singleton.mpr rfl
  exact happ.1 5 hmem

/-- **C8**: on a freshly constructed map (generate never called), the
buffer is empty: `to_table` returns the empty text, and `to_image`
returns an image whose dimensions are the field's size with every pixel
zero — both total functions of the empty buffer, no failure path. -/
theorem claim_C8_ungenerated_render (sx sy r : ℕ) (mn mx : ℚ) :
    (Map.new sx sy mn mx r).to_table = "" ∧
    (Map.new sx sy mn mx r).to_image.width = sx ∧
    (Map.new sx sy mn mx r).to_image.height = sy ∧
    (∀ p : ℕ × ℕ, (Map.new sx sy mn mx r).to_image.pix p = (0, 0, 0)) :=
  ⟨rfl, rfl, rfl, fun _ => rfl⟩

/-- **C10**: every reachable `Map` has a buffer that is empty or of
length `width*height` with `width > 0`; consequently a nonempty buffer
forces `width > 0`, so `iter`'s decomposition `(i % width, i / width)`
never divides by zero — zero-sized maps keep an empty buffer (`new`
starts empty and `generate` resizes to `width*height = 0`). -/
theorem claim_C10_buffer_invariant (m : Map) (hm : ReachableMap m) :
    (m.data = [] ∨ (m.data.length = m.size.1 * m.size.2 ∧ 0 < m.size.1)) ∧
    (m.data ≠ [] → 0 < m.size.1) := by
  have gen : ∀ (ev : NoiseEval) (rng : RngStream) (m' : Map),
      (m'.generate ev rng).data = []
      ∨ ((m'.generate ev rng).data.length
            = (m'.generate ev rng).size.1 * (m'.generate ev rng).size.2
          ∧ 0 < (m'.generate ev rng).size.1) := by
    intro ev rng m'
    have hlen : (m'.generate ev rng).data.length = m'.size.1 * m'.size.2 :=
      generateData_length ev rng m'.size m'.roughness
    by_cases hw : 0 < m'.size.1
    · exact Or.inr ⟨hlen, hw⟩
    · left
      rw [← List.length_eq_zero, hlen]
      have hw0 : m'.size.1 = 0 := by omega
      rw [hw0, Nat.zero_mul]
  have main : m.data = []
      ∨ (m.data.length = m.size.1 * m.size.2 ∧ 0 < m.size.1) := by
    induction hm with
    | new sx sy mn mx r => exact Or.inl rfl
    | generate ev rng m' hm' ih => exact gen ev rng m'
    | generate_seeded ev stdRngOf tr seed m' hm' ih =>
      cases seed with
      | some s => exact gen ev (stdRngOf s) m'
      | none => exact gen ev tr m'
  refine ⟨main, fun hne => ?_⟩
  rcases main with h | h
  · exact absurd h hne
  · exact h.2

/-- Witness for C10 on a generated zero-width map: the buffer stays
empty. -/
theorem claim_C10_witness :
    (((Map.new 0 5 0 1 3).generate (fun _ _ _ _ => 1) (fun i => i)).data = []
      ∨ (((Map.new 0 5 0 1 3).generate (fun _ _ _ _ => 1)
            (fun i => i)).data.length
          = ((Map.new 0 5 0 1 3).generate (fun _ _ _ _ => 1)
              (fun i => i)).size.1
            * ((Map.new 0 5 0 1 3).generate (fun _ _ _ _ => 1)
              (fun i => i)).size.2
        ∧ 0 < ((Map.new 0 5 0 1 3).generate (fun _ _ _ _ => 1)
            (fun i => i)).size.1)) ∧
    (((Map.new 0 5 0 1 3).generate (fun _ _ _ _ => 1) (fun i => i)).data ≠ []
      → 0 < ((Map.new 0 5 0 1 3).generate (fun _ _ _ _ => 1)
          (fun i => i)).size.1) :=
  claim_C10_buffer_invariant _
    (ReachableMap.generate _ _ _ (ReachableMap.new 0 5 0 1 3))

/-! ## String-level helper lemmas for the table layout -/

theorem str_append_assoc (a b c : String) : a ++ b ++ c = a ++ (b ++ c) :=
  String.ext (by simp [List.append_assoc])

theorem str_append_empty (s : String) : s ++ "" = s :=
  String.ext (by simp)

theorem str_empty_append (s : String) : "" ++ s = s :=
  String.ext (by simp)

theorem str_foldl_append (l : List String) :
    ∀ acc : String, l.foldl (fun r s => r ++ s) acc
      = acc ++ l.foldl (fun r s => r ++ s) "" := by
  induction l with
  | nil => intro acc; exact (str_append_empty acc).symm
  | cons a l ih =>
    intro acc
    show l.foldl _ (acc ++ a) = acc ++ l.foldl _ ("" ++ a)
    rw [ih (acc ++ a), ih ("" ++ a), str_empty_append]
    exact str_append_assoc acc a _

theorem str_join_cons (a : String) (l : List String) :
    String.join (a :: l) = a ++ String.join l := by
  show l.foldl (fun r s => r ++ s) ("" ++ a) = a ++ String.join l
  rw [str_empty_append]
  exact str_foldl_append l a

theorem str_join_append (l₁ l₂ : List String) :
    String.join (l₁ ++ l₂) = String.join l₁ ++ String.join l₂ := by
  induction l₁ with
  | nil =>
    rw [List.nil_append]
    exact (str_empty_append _).symm
  | cons a l ih =>
    rw [List.cons_append, str_join_cons, str_join_cons, ih, str_append_assoc]

theorem strPop_append_space (s : String) : strPop (s ++ " ") = s := by
  apply String.ext
  show ((s ++ " ").data).dropLast = s.data
  rw [String.data_append]
  show (s.data ++ [' ']).dropLast = s.data
  exact List.dropLast_concat

theorem strPop_space_general (A B : String) :
    strPop (A ++ (B ++ " ")) ++ " " = A ++ (B ++ " ") := by
  rw [← str_append_assoc, strPop_append_space]

theorem str_intercalate_go (s : String) :
    ∀ (l : List String) (a b : String),
    String.intercalate.go (a ++ b) s l = a ++ String.intercalate.go b s l := by
  intro l
  induction l with
  | nil => intro a b; rfl
  | cons c l ih =>
    intro a b
    show String.intercalate.go (a ++ b ++ s ++ c) s l
      = a ++ String.intercalate.go (b ++ s ++ c) s l
    rw [show a ++ b ++ s ++ c = a ++ (b ++ s ++ c) from
      String.ext (by simp [List.append_assoc])]
    exact ih a (b ++ s ++ c)

theorem str_intercalate_singleton (s a : String) :
    String.intercalate s [a] = a := rfl

theorem str_intercalate_cons_cons (s a b : String) (l : List String) :
    String.intercalate s (a :: b :: l) = a ++ s ++ String.intercalate s (b :: l) := by
  show String.intercalate.go (a ++ s ++ b) s l = a ++ s ++ String.intercalate.go b s l
  rw [str_append_assoc a s b, str_intercalate_go s l a (s ++ b)]
  rw [show s ++ b = s ++ ("" ++ b) by rw [str_empty_append],
    str_intercalate_go s l s ("" ++ b), str_empty_append]
  rw [← str_append_assoc]

theorem str_intercalate_append_singleton (s a : String) :
    ∀ (L : List String), L ≠ [] →
    String.intercalate s (L ++ [a]) = String.intercalate s L ++ s ++ a := by
  intro L
  induction L with
  | nil => intro h; exact absurd rfl h
  | cons b L ih =>
    intro _hne
    cases L with
    | nil =>
      rw [List.cons_append, List.nil_append, str_intercalate_cons_cons,
        str_intercalate_singleton, str_intercalate_singleton]
    | cons c L' =>
      rw [List.cons_append, List.cons_append]
      rw [str_intercalate_cons_cons s b c (L' ++ [a])]
      rw [show c :: (L' ++ [a]) = (c :: L') ++ [a] from rfl, ih (by simp)]
      rw [str_intercalate_cons_cons s b c L']
      exact String.ext (by simp [List.append_assoc])

theorem map_range_getD (l : List ℚ) :
    (List.range l.length).map (fun i => l.getD i 0) = l := by
  induction l with
  | nil => rfl
  | cons a l ih =>
    rw [List.length_cons, List.range_succ_eq_map, List.map_cons, List.map_map]
    simp only [Function.comp_def, Nat.succ_eq_add_one, List.getD_cons_zero,
      List.getD_cons_succ]
    rw [ih]

/-- Every rendered table row ends in the trailing space of its last cell:
popping the last character and pushing a space is the identity on rows. -/
theorem tableRow_ends_space (ht : ℚ × ℚ) (W w : ℕ) (hw : 0 < w)
    (data : List ℚ) (y : ℕ) :
    strPop (tableRow ht W w data y) ++ " " = tableRow ht W w data y := by
  obtain ⟨n, rfl⟩ : ∃ n, w = n + 1 := ⟨w - 1, by omega⟩
  unfold tableRow
  rw [List.range_succ, List.map_append, str_join_append, List.map_cons,
    List.map_nil]
  rw [show String.join [cellStr ht W (data.getD (n + y * (n + 1)) 0)]
      = cellStr ht W (data.getD (n + y * (n + 1)) 0) from
    (str_join_cons _ _).trans (str_append_empty _)]
  unfold cellStr
  exact strPop_space_general _ _

/-- Folding the table step over the non-breaking tail of a row (cells at
x ≥ 1 never trigger the row break) appends the rendered cells. -/
theorem table_fold_row_tail (ht : ℚ × ℚ) (W w h : ℕ) :
    ∀ (l2 : List ℚ) (j : ℕ), 1 ≤ j → j + l2.length ≤ w →
    ∀ acc : String,
    ((List.enumFrom (j + h * w) l2).map
        (fun p : ℕ × ℚ => ((p.1 % w, p.1 / w), p.2))).foldl
        (tableStep ht W) acc
      = acc ++ String.join (l2.map (cellStr ht W)) := by
  intro l2
  induction l2 with
  | nil =>
    intro j hj hle acc
    simp only [List.enumFrom_nil, List.map_nil, List.foldl_nil]
    exact (str_append_empty acc).symm
  | cons v l2 ih =>
    intro j hj hle acc
    simp only [List.enumFrom_cons, List.map_cons, List.foldl_cons,
      List.length_cons] at hle ⊢
    have hdec := @rowMajor_decode j h w (by omega)
    rw [hdec.1, hdec.2]
    rw [show tableStep ht W acc ((j, h), v) = acc ++ cellStr ht W v from by
      unfold tableStep
      rw [if_neg (by omega : ¬(j = 0 ∧ h ≠ 0))]]
    rw [show j + h * w + 1 = (j + 1) + h * w by omega]
    rw [ih (j + 1) (by omega) (by omega) (acc ++ cellStr ht W v)]
    rw [str_join_cons, ← str_append_assoc]

/-- Folding the table step over one full row of `w` cells whose indices
start at `y*w`: the first cell (x = 0) triggers the row break exactly when
`y ≠ 0`. -/
theorem table_fold_row (ht : ℚ × ℚ) (W w : ℕ) (hw : 0 < w) (h : ℕ)
    (lrow : List ℚ) (hlen : lrow.length = w) (acc : String) :
    ((List.enumFrom (h * w) lrow).map
        (fun p : ℕ × ℚ => ((p.1 % w, p.1 / w), p.2))).foldl
        (tableStep ht W) acc
      = (if h = 0 then acc else strPop acc ++ "\r\n")
        ++ String.join (lrow.map (cellStr ht W)) := by
  cases lrow with
  | nil => simp at hlen; omega
  | cons v l2 =>
    have hlen2 : l2.length + 1 = w := by simpa using hlen
    simp only [List.enumFrom_cons, List.map_cons, List.foldl_cons]
    have h1 : h * w % w = 0 := Nat.mul_mod_left h w
    have h2 : h * w / w = h := Nat.mul_div_cancel h hw
    rw [h1, h2]
    rw [show tableStep ht W acc ((0, h), v)
        = (if h = 0 then acc else strPop acc ++ "\r\n") ++ cellStr ht W v from by
      unfold tableStep
      by_cases hh : h = 0
      · subst hh
        rw [if_neg (by simp), if_pos rfl]
      · rw [if_pos ⟨rfl, hh⟩, if_neg hh]]
    rw [show h * w + 1 = 1 + h * w by omega]
    rw [table_fold_row_tail ht W w h l2 1 (le_refl 1) (by omega) _]
    rw [str_join_cons, ← str_append_assoc]

/-- The complete `to_table` fold over a `w × (h+1)` buffer yields the
rows joined by `"\r\n"`, each row's trailing space popped at the break,
with the final row's trailing space kept. -/
theorem table_fold_rows (ht : ℚ × ℚ) (W w : ℕ) (hw : 0 < w) :
    ∀ (h : ℕ) (data : List ℚ), data.length = w * (h + 1) →
    ((data.enum.map (fun p : ℕ × ℚ => ((p.1 % w, p.1 / w), p.2))).foldl
        (tableStep ht W) "")
      = String.intercalate "\r\n" ((List.range (h + 1)).map
          (fun y => strPop (tableRow ht W w data y))) ++ " " := by
  intro h
  induction h with
  | zero =>
    intro data hlen
    have hlenw : data.length = w := by simpa using hlen
    rw [show data.enum = List.enumFrom (0 * w) data from by
      rw [Nat.zero_mul]; rfl]
    rw [table_fold_row ht W w hw 0 data hlenw "", if_pos rfl, str_empty_append]
    rw [show List.range 1 = [0] from rfl, List.map_cons, List.map_nil,
      str_intercalate_singleton]
    have hrow0 : tableRow ht W w data 0 = String.join (data.map (cellStr ht W)) := by
      unfold tableRow
      congr 1
      simp only [Nat.zero_mul, Nat.add_zero]
      rw [show (fun x => cellStr ht W (data.getD x 0))
          = (cellStr ht W) ∘ (fun i => data.getD i 0) from rfl]
      rw [← hlenw, ← List.map_map, map_range_getD]
    rw [tableRow_ends_space ht W w hw data 0, hrow0]
  | succ n ih =>
    intro data hlen
    have hmul : w * (n + 1 + 1) = w * (n + 1) + w := by ring
    have hfront : (data.take (w * (n + 1))).length = w * (n + 1) := by
      rw [List.length_take]
      omega
    have hlast : (data.drop (w * (n + 1))).length = w := by
      rw [List.length_drop, hlen]
      omega
    have key : ∀ (F L : List ℚ), F.length = w * (n + 1) → L.length = w →
        (((F ++ L).enum.map
            (fun p : ℕ × ℚ => ((p.1 % w, p.1 / w), p.2))).foldl
            (tableStep ht W) "")
          = String.intercalate "\r\n" ((List.range (n + 1 + 1)).map
              (fun y => strPop (tableRow ht W w (F ++ L) y))) ++ " " := by
      intro F L hF hL
      rw [List.enum_append, List.map_append, List.foldl_append]
      rw [ih F hF]
      rw [hF, show w * (n + 1) = (n + 1) * w from Nat.mul_comm w (n + 1)]
      rw [table_fold_row ht W w hw (n + 1) L hL _]
      rw [if_neg (Nat.succ_ne_zero n)]
      have hrows : ∀ y ∈ List.range (n + 1),
          strPop (tableRow ht W w (F ++ L) y) = strPop (tableRow ht W w F y) := by
        intro y hy
        rw [List.mem_range] at hy
        unfold tableRow
        congr 2
        apply List.map_congr_left
        intro x hx
        rw [List.mem_range] at hx
        congr 1
        have hidx : x + y * w < F.length := by
          rw [hF]
          exact cell_index_lt hx hy
        simp only [List.getD_eq_getElem?_getD]
        rw [List.getElem?_append_left hidx]
      have hlastrow : tableRow ht W w (F ++ L) (n + 1)
          = String.join (L.map (cellStr ht W)) := by
        unfold tableRow
        have hcells : ∀ x ∈ List.range w,
            cellStr ht W ((F ++ L).getD (x + (n + 1) * w) 0)
              = cellStr ht W (L.getD x 0) := by
          intro x hx
          rw [List.mem_range] at hx
          congr 1
          have hcomm : w * (n + 1) = (n + 1) * w := Nat.mul_comm w (n + 1)
          have hge : F.length ≤ x + (n + 1) * w := by omega
          simp only [List.getD_eq_getElem?_getD]
          rw [List.getElem?_append_right hge]
          rw [show x + (n + 1) * w - F.length = x from by omega]
        rw [List.map_congr_left hcells]
        rw [show (fun x => cellStr ht W (L.getD x 0))
            = (cellStr ht W) ∘ (fun i => L.getD i 0) from rfl]
        rw [← hL, ← List.map_map, map_range_getD]
      have hends : strPop (String.join (L.map (cellStr ht W))) ++ " "
          = String.join (L.map (cellStr ht W)) := by
        rw [← hlastrow]
        exact tableRow_ends_space ht W w hw (F ++ L) (n + 1)
      have hRHS : String.intercalate "\r\n" ((List.range (n + 1 + 1)).map
            (fun y => strPop (tableRow ht W w (F ++ L) y))) ++ " "
          = String.intercalate "\r\n" ((List.range (n + 1)).map
              (fun y => strPop (tableRow ht W w F y)))
            ++ "\r\n" ++ strPop (String.join (L.map (cellStr ht W))) ++ " " := by
        rw [List.range_succ, List.map_append, List.map_cons, List.map_nil]
        rw [str_intercalate_append_singleton "\r\n" _ _ (by
          intro hcon
          have hlencon := congrArg List.length hcon
          simp at hlencon)]
        rw [List.map_congr_left hrows, hlastrow]
      rw [hRHS, strPop_append_space]
      conv_rhs => rw [str_append_assoc, hends]
    have := key (data.take (w * (n + 1))) (data.drop (w * (n + 1)))
      hfront hlast
    rwa [List.take_append_drop] at this

/-- **C7**: `to_table` renders one row per output line: the output is the
rows (each the concatenation of its `width` cells, every cell the value
formatted to one decimal digit and right-aligned to the column width
`log10(max_height) + 3` — truncated to an integer and computed once for
the whole table) joined by carriage-return + line-feed, where each row
break pops the trailing space of the preceding row (no trailing space
before a break, rows delimited purely by `x` wrapping to `0`), with no
trailing CRLF after the final row (the text ends with the final cell's
space).  Second conjunct: every row ends in exactly that popped space. -/
theorem claim_C7_table_layout (m : Map) (hw : 0 < m.size.1)
    (hh : 0 < m.size.2) (hlen : m.data.length = m.size.1 * m.size.2) :
    m.to_table
      = String.intercalate "\r\n" ((List.range m.size.2).map
          (fun y => strPop (tableRow m.height (log10trunc m.height.2 + 3)
            m.size.1 m.data y))) ++ " " ∧
    ∀ y : ℕ, strPop (tableRow m.height (log10trunc m.height.2 + 3)
        m.size.1 m.data y) ++ " "
      = tableRow m.height (log10trunc m.height.2 + 3) m.size.1 m.data y := by
  constructor
  · obtain ⟨n, hn⟩ : ∃ n, m.size.2 = n + 1 := ⟨m.size.2 - 1, by omega⟩
    have := table_fold_rows m.height (log10trunc m.height.2 + 3) m.size.1 hw n
      m.data (by rw [hlen, hn])
    rw [hn]
    exact this
  · intro y
    exact tableRow_ends_space _ _ _ hw _ _

/-- Witness for C7 on a concrete 2×2 map with height range `(0, 10)`. -/
theorem claim_C7_witness :
    (({ size := (2, 2), height := (0, 10), roughness := 0, data := [1/20, 1/5, 7/20, 3/2] } : Map).to_table
      = String.intercalate "\r\n" ((List.range 2).map
          (fun y => strPop (tableRow (0, 10) (log10trunc 10 + 3) 2
            [1/20, 1/5, 7/20, 3/2] y))) ++ " ") ∧
    (strPop (tableRow (0, 10) (log10trunc 10 + 3) 2 [1/20, 1/5, 7/20, 3/2] 1)
        ++ " "
      = tableRow (0, 10) (log10trunc 10 + 3) 2 [1/20, 1/5, 7/20, 3/2] 1) := by
  obtain ⟨h1, h2⟩ := claim_C7_table_layout
    ({ size := (2, 2), height := (0, 10), roughness := 0, data := [1/20, 1/5, 7/20, 3/2] } : Map)
    (by decide) (by decide) rfl
  exact ⟨h1, h2 1⟩
